import Mathlib

/-!
# NzbFile (lib/nzb_file.js)

A shallow embedding of the `NzbFile` class of nitpin: the job registry
operations (`abort`, `pause`, `resume`), the `progress` getter, the filename
`triage`, and the segment pipelines and ordered reassembler of `stream`.

JavaScript numbers are binary64 values.  Where the source divides or
multiplies, the embedding rounds to the nearest binary64 value (ties to even)
using exact natural-number arithmetic.
-/

namespace NzbFile

/-! ## Job registry -/

/-- The job handle returned by `server.getBody`, reduced to its three readable
flags. -/
structure Job where
  executed : Bool
  cancelled : Bool
  paused : Bool
deriving DecidableEq, Repr

/-- Modelled from the spec: `job.cancel()` of the fetch client marks the job
cancelled. -/
def Job.cancel (job : Job) : Job := { job with cancelled := true }

/-- Modelled from the spec: `job.pause()` of the fetch client sets the paused
flag. -/
def Job.pause (job : Job) : Job := { job with paused := true }

/-- Modelled from the spec: `job.resume()` of the fetch client clears the
paused flag. -/
def Job.resume (job : Job) : Job := { job with paused := false }

/-- Events emitted on the NzbFile informer by the registry operations. -/
inductive FileEvent where
  | aborted (count : Nat)
  | paused (count : Nat)
  | resumed (count : Nat)
deriving DecidableEq, Repr

/-- The callback `eachJob` of `abort`, threading the local counter `aborted`.
The source statement is `abort++`: inside the named function expression
`function abort()` the identifier `abort` is the read-only binding of the
function itself, so in sloppy mode the increment evaluates and its store is
dropped.  The local `aborted` is not touched. -/
def abortEachJob (aborted : Nat) (job : Job) : Nat × Job :=
  if !job.executed && !job.cancelled then
    (aborted, job.cancel)
  else
    (aborted, job)

/-- The callback `eachJob` of `pause`, threading the local counter `paused`. -/
def pauseEachJob (paused : Nat) (job : Job) : Nat × Job :=
  if !job.executed && !job.cancelled && !job.paused then
    (paused + 1, job.pause)
  else
    (paused, job)

/-- The callback `eachJob` of `resume`, threading the local counter
`resumed`. -/
def resumeEachJob (resumed : Nat) (job : Job) : Nat × Job :=
  if !job.executed && !job.cancelled && job.paused then
    (resumed + 1, job.resume)
  else
    (resumed, job)

/-- The loop `this.jobs.forEach(eachJob)`: visits the jobs in order, threading
the counter and collecting the jobs as the callback leaves them. -/
def forEachJob (eachJob : Nat → Job → Nat × Job) : Nat → List Job → Nat × List Job
  | count, [] => (count, [])
  | count, job :: rest =>
    let r := eachJob count job
    let t := forEachJob eachJob r.1 rest
    (t.1, r.2 :: t.2)

/-- The method `abort()`: the jobs afterwards and the events emitted. -/
def abort (jobs : List Job) : List Job × List FileEvent :=
  let r := forEachJob abortEachJob 0 jobs
  (r.2, if r.1 ≠ 0 then [FileEvent.aborted r.1] else [])

/-- The method `pause()`: the jobs afterwards and the events emitted. -/
def pause (jobs : List Job) : List Job × List FileEvent :=
  let r := forEachJob pauseEachJob 0 jobs
  (r.2, if r.1 ≠ 0 then [FileEvent.paused r.1] else [])

/-- The method `resume()`: the jobs afterwards and the events emitted. -/
def resume (jobs : List Job) : List Job × List FileEvent :=
  let r := forEachJob resumeEachJob 0 jobs
  (r.2, if r.1 ≠ 0 then [FileEvent.resumed r.1] else [])

/-- The number of jobs `abort()` cancels: those neither executed nor already
cancelled. -/
def cancellable (jobs : List Job) : Nat :=
  (jobs.filter (fun job => !job.executed && !job.cancelled)).length

/-! ## Binary64 arithmetic -/

/-- The loop behind `log2`: halves `n` until it is below 2, at most `fuel`
times. -/
def log2Loop : Nat → Nat → Nat
  | 0, _ => 0
  | fuel + 1, n => if n < 2 then 0 else log2Loop fuel (n / 2) + 1

/-- The position of the leading one bit of `n`: `floor(log2 n)` for positive
`n`. -/
def log2 (n : Nat) : Nat := log2Loop n n

/-- The binary64 value nearest to the positive rational `a / b` (ties to
even), as a pair `(m, s)` standing for `m * 2 ^ s`, with `2 ^ 52 ≤ m ≤ 2 ^ 53`.
Both `a` and `b` are positive; the quotients of this program lie between
`2 ^ (-32)` and `2 ^ 1023`, inside the normal range. -/
def f64Round (a b : Nat) : Nat × Int :=
  let e : Int := (log2 a : Int) - (log2 b : Int)
  let s : Int := 53 - e
  let n : Nat := if 0 ≤ s then a * 2 ^ s.toNat else a
  let d : Nat := if 0 ≤ s then b else b * 2 ^ (-s).toNat
  let big : Bool := decide (2 ^ 53 ≤ n / d)
  let d2 : Nat := if big then 2 * d else d
  let s2 : Int := if big then s - 1 else s
  let q := n / d2
  let r := n % d2
  let up : Bool := decide (d2 < 2 * r) || (decide (2 * r = d2) && decide (q % 2 = 1))
  (if up then q + 1 else q, -s2)

/-- The operation `x / y` on two non-negative integer values below `2 ^ 53`,
`y` positive: zero, or the rounded quotient as a pair `(m, s)`. -/
def f64Div (x y : Nat) : Nat × Int :=
  if x = 0 then (0, 0) else f64Round x y

/-- The operation `v * k` for a binary64 value `v = m * 2 ^ s` and a positive
integer `k` below `2 ^ 53`. -/
def f64MulNat (v : Nat × Int) (k : Nat) : Nat × Int :=
  if v.1 = 0 then (0, 0)
  else if 0 ≤ v.2 then f64Round (v.1 * k * 2 ^ v.2.toNat) 1
  else f64Round (v.1 * k) (2 ^ (-v.2).toNat)

/-- The operation `~~v` on a non-negative binary64 value `v = m * 2 ^ s` below
`2 ^ 31`: truncation to an integer. -/
def f64Trunc (v : Nat × Int) : Nat :=
  if 0 ≤ v.2 then v.1 * 2 ^ v.2.toNat else v.1 / 2 ^ (-v.2).toNat

/-- The getter `progress`:
`~~((this.finishedSegments / this.segments.length) * 100)`, for a non-empty
segment list. -/
def progress (finishedSegments segmentsLength : Nat) : Nat :=
  f64Trunc (f64MulNat (f64Div finishedSegments segmentsLength) 100)

/-- The percentage the getter is documented to return, in exact arithmetic:
`floor(f / N × 100)`. -/
def exactPercent (finishedSegments segmentsLength : Nat) : Nat :=
  finishedSegments * 100 / segmentsLength

/-! ## Triage -/

/-- A JavaScript number that is an integer or `Infinity`. -/
inductive JsNumber where
  | finite (value : Int)
  | infinity
deriving DecidableEq, Repr

/-- The binary64 value of a natural number: itself below `2 ^ 53`, otherwise
rounded to 53 significant bits, and `Infinity` from `2 ^ 1024` on. -/
def f64OfNat (n : Nat) : JsNumber :=
  if n < 2 ^ 53 then JsNumber.finite n
  else
    let r := f64Round n 1
    let v := r.1 * 2 ^ r.2.toNat
    if log2 v < 1024 then JsNumber.finite v else JsNumber.infinity

/-- The value of a run of decimal digits read as a decimal numeral. -/
def decimalValue (digits : List Char) : Nat :=
  digits.foldl (fun acc c => 10 * acc + (c.toNat - 48)) 0

/-- The conversion `Number(text)` for a non-empty run of decimal digits. -/
def toNumber (digits : List Char) : JsNumber :=
  f64OfNat (decimalValue digits)

/-- The operation `x - 1` on a non-negative integer value or `Infinity`. -/
def minusOne : JsNumber → JsNumber
  | JsNumber.infinity => JsNumber.infinity
  | JsNumber.finite v => if v ≤ 0 then JsNumber.finite (v - 1) else f64OfNat (v.toNat - 1)

/-- The operation `x + 1` on a non-negative integer value or `Infinity`. -/
def plusOne : JsNumber → JsNumber
  | JsNumber.infinity => JsNumber.infinity
  | JsNumber.finite v => f64OfNat (v.toNat + 1)

/-- The class `\w`: ASCII letters, ASCII digits and the underscore. -/
def isWordChar (c : Char) : Bool :=
  c.isAlphanum || c == '_'

/-- The remainder of `s` after the literal `lit`, when `s` starts with it. -/
def dropLiteral : List Char → List Char → Option (List Char)
  | [], s => some s
  | _ :: _, [] => none
  | l :: lit, c :: s => if l = c then dropLiteral lit s else none

/-- A match of `\Wpart(\d+)\.rar` beginning at the first character of `s`: the
text of group 1.  The greedy `\d+` takes the whole run of digits; giving a
digit back would leave a digit where `\.` is required, so no shorter run can
match. -/
def matchPartRarHere (s : List Char) : Option (List Char) :=
  match s with
  | [] => none
  | c :: rest =>
    if isWordChar c then none
    else
      match dropLiteral ['p', 'a', 'r', 't'] rest with
      | none => none
      | some afterPart =>
        let digits := afterPart.takeWhile Char.isDigit
        if digits.isEmpty then none
        else
          match dropLiteral ['.', 'r', 'a', 'r'] (afterPart.dropWhile Char.isDigit) with
          | none => none
          | some _ => some digits

/-- The call `/\Wpart(\d+)\.rar/.exec(filename)`: group 1 of the leftmost
match, trying every start position from the left. -/
def execPartRar : List Char → Option (List Char)
  | [] => none
  | c :: rest =>
    match matchPartRarHere (c :: rest) with
    | some digits => some digits
    | none => execPartRar rest

/-- A match of `\.r(\d\d)$` beginning at the first character of `s`: the text
of group 1. -/
def matchRnnHere : List Char → Option (List Char)
  | ['.', 'r', d1, d2] => if d1.isDigit && d2.isDigit then some [d1, d2] else none
  | _ => none

/-- The call `/\.r(\d\d)$/.exec(filename)`: group 1 of the leftmost match. -/
def execRnn : List Char → Option (List Char)
  | [] => none
  | c :: rest =>
    match matchRnnHere (c :: rest) with
    | some digits => some digits
    | none => execRnn rest

/-- The test `filename.indexOf(pat) != -1`. -/
def hasSubstring (pat : List Char) : List Char → Bool
  | [] => pat.isEmpty
  | c :: rest => pat.isPrefixOf (c :: rest) || hasSubstring pat rest

/-- The test `Str.endsWith(filename, suffix)`. -/
def endsWith (filename suffix : List Char) : Bool :=
  suffix.isSuffixOf filename

/-- The fields of an NzbFile that `triage` reads or assigns.  The constructor
sets `suborder` to 0 and leaves `parchive` unset before it calls `triage`. -/
structure FileEntry where
  name : List Char
  parchive : Bool
  suborder : JsNumber
deriving DecidableEq, Repr

/-- The lists `pars` and `rars` of the parent NZB document. -/
structure NzbLists where
  parsMain : Option FileEntry
  parsOthers : List FileEntry
  rarsOthers : List FileEntry
deriving DecidableEq, Repr

/-- The file as the constructor leaves it when it calls `triage`. -/
def newFile (filename : List Char) : FileEntry :=
  { name := filename, parchive := false, suborder := JsNumber.finite 0 }

/-- The method `triage()`, run on a freshly constructed file: the file and
the parent's lists afterwards. -/
def triage (filename : List Char) (nzb : NzbLists) : FileEntry × NzbLists :=
  let file := newFile filename
  if endsWith filename ['.', 'p', 'a', 'r', '2'] then
    let file := { file with parchive := true }
    if !hasSubstring ['.', 'v', 'o', 'l'] filename then
      (file, { nzb with parsMain := some file })
    else
      (file, { nzb with parsOthers := nzb.parsOthers ++ [file] })
  else if endsWith filename ['.', 'r', 'a', 'r'] then
    let file :=
      match execPartRar filename with
      | some digits => { file with suborder := minusOne (toNumber digits) }
      | none => { file with suborder := JsNumber.finite 0 }
    (file, { nzb with rarsOthers := nzb.rarsOthers ++ [file] })
  else
    match execRnn filename with
    | some digits =>
      let file := { file with suborder := plusOne (toNumber digits) }
      (file, { nzb with rarsOthers := nzb.rarsOthers ++ [file] })
    | none => (file, nzb)

/-- Parent lists with nothing registered yet. -/
def emptyLists : NzbLists :=
  { parsMain := none, parsOthers := [], rarsOthers := [] }

/-- An occurrence of the pattern `\Wpart(\d+)\.rar` in `s`, starting right
after the text `pre`, with `digits` the text of group 1. -/
def PartRarAt (s pre digits : List Char) : Prop :=
  ∃ c post,
    s = pre ++ c :: 'p' :: 'a' :: 'r' :: 't' :: (digits ++ '.' :: 'r' :: 'a' :: 'r' :: post)
    ∧ isWordChar c = false ∧ digits ≠ [] ∧ ∀ d ∈ digits, d.isDigit = true

/-! ## Streaming: one segment pipeline -/

/-- The bytes of a Node buffer, each below 256. -/
abbrev Buffer := List Nat

/-- A JavaScript string as its UTF-16 code units. -/
abbrev JsString := List Nat

/-- The call `buffer.toString('binary')`: one code unit per byte, with the
value of the byte. -/
def toBinaryString (buffer : Buffer) : JsString := buffer

/-- The bytes written by `write(text, 'binary')`: the low byte of every code
unit. -/
def binaryBytes (text : JsString) : Buffer := text.map (fun u => u % 256)

/-- The bytes of `new Buffer(text)`.  No encoding is given, so the string is
encoded as UTF-8: one byte for a code unit below 0x80, two below 0x800, four
for a surrogate pair, three otherwise (a lone surrogate becomes U+FFFD). -/
def utf8Encode : JsString → Buffer
  | [] => []
  | [u] =>
    if u < 0x80 then [u]
    else if u < 0x800 then [0xC0 + u / 64, 0x80 + u % 64]
    else if 0xD800 ≤ u ∧ u < 0xE000 then [0xEF, 0xBF, 0xBD]
    else [0xE0 + u / 4096, 0x80 + u / 64 % 64, 0x80 + u % 64]
  | u :: v :: rest =>
    if u < 0x80 then u :: utf8Encode (v :: rest)
    else if u < 0x800 then (0xC0 + u / 64) :: (0x80 + u % 64) :: utf8Encode (v :: rest)
    else if 0xD800 ≤ u ∧ u < 0xDC00 ∧ 0xDC00 ≤ v ∧ v < 0xE000 then
      let cp := 0x10000 + (u - 0xD800) * 1024 + (v - 0xDC00)
      (0xF0 + cp / 262144) :: (0x80 + cp / 4096 % 64) :: (0x80 + cp / 64 % 64)
        :: (0x80 + cp % 64) :: utf8Encode rest
    else if 0xD800 ≤ u ∧ u < 0xE000 then 0xEF :: 0xBF :: 0xBD :: utf8Encode (v :: rest)
    else (0xE0 + u / 4096) :: (0x80 + u / 64 % 64) :: (0x80 + u % 64) :: utf8Encode (v :: rest)

/-- A segment descriptor of the NZB file entry. -/
structure Segment where
  id : String
  bytes : Nat
  number : Nat
deriving DecidableEq, Repr

/-- The fields of a `Yencer.YencFile` that this file reads or assigns. -/
structure YencFile where
  segment : Segment
  articlesize : Nat
  intact : Bool
  buffer : Buffer
deriving DecidableEq, Repr

/-- The decoder library, taken as a parameter: the article size that
`new Yencer.YencFile(segment)` derives from the segment, and the buffer and
intact flag that `decodePiece(body)` leaves on the object. -/
structure Decoder where
  articlesize : Segment → Nat
  decodePiece : Segment → Option JsString → Buffer × Bool

/-- The arguments with which the fetch client calls `gotSegment`. -/
inductive FetchResult where
  | error (response : Option JsString)
  | ok (response : JsString)
deriving DecidableEq, Repr

/-- What the collaborators answer for one segment: `nzb.getTemp` (the
directory, or none for an error), `fs.readFile` on the cache path (the bytes,
or none for an error) and `server.getBody`. -/
structure Outcome where
  temp : Option String
  file : Option Buffer
  fetch : FetchResult
deriving DecidableEq, Repr

/-- The value of `libpath.resolve(temppath, slug(segment.id))`, kept as the
directory and the segment id. -/
abbrev CachePath := String × String

/-- The variables of one `getSegment` task after the `getCache` step. -/
structure CacheStage where
  tempFilePath : Option CachePath
  cachehit : Bool
  body : Option JsString
deriving DecidableEq, Repr

/-- The step `getCache` of the series. -/
def getCache (segment : Segment) (w : Outcome) : CacheStage :=
  match w.temp with
  | none => { tempFilePath := none, cachehit := false, body := none }
  | some temppath =>
    match w.file with
    | some buffer =>
      { tempFilePath := some (temppath, segment.id), cachehit := true,
        body := some (toBinaryString buffer) }
    | none =>
      { tempFilePath := some (temppath, segment.id), cachehit := false, body := none }

/-- The test `if (body)`: a string is truthy when it is not empty, and
`undefined` is falsy. -/
def truthy : Option JsString → Bool
  | some (_ :: _) => true
  | _ => false

/-- The variables of one `getSegment` task when `deYenc` is called, with the
calls it made on the way: `err` is the argument of `deYenc`, `getBodyCalls`
the calls of `server.getBody`, `jobsPushed` the jobs added to `that.jobs`,
`cacheWrite` the body written to the cache path. -/
structure FetchStage where
  tempFilePath : Option CachePath
  cachehit : Bool
  body : Option JsString
  err : Bool
  getBodyCalls : Nat
  jobsPushed : Nat
  cacheWrite : Option (CachePath × Buffer)
deriving DecidableEq, Repr

/-- The step `getSegment` of the series, with the callback `gotSegment`. -/
def getSegment (c : CacheStage) (w : Outcome) : FetchStage :=
  if truthy c.body then
    { tempFilePath := c.tempFilePath, cachehit := c.cachehit, body := c.body, err := false,
      getBodyCalls := 0, jobsPushed := 0, cacheWrite := none }
  else
    match w.fetch with
    | FetchResult.error response =>
      { tempFilePath := c.tempFilePath, cachehit := c.cachehit, body := response, err := true,
        getBodyCalls := 1, jobsPushed := 1, cacheWrite := none }
    | FetchResult.ok response =>
      { tempFilePath := c.tempFilePath, cachehit := c.cachehit, body := some response,
        err := false, getBodyCalls := 1, jobsPushed := 1,
        cacheWrite := c.tempFilePath.map (fun path => (path, binaryBytes response)) }

/-- The variables `yfile`, `fbuffer` and `cachehit` of one `eachSegment`
activation, as `deYenc` leaves them. -/
structure SegmentVars where
  yfile : Option YencFile
  fbuffer : Buffer
  cachehit : Bool
deriving DecidableEq, Repr

/-- The assignments of `deYenc(err)` to `yfile`, `fbuffer` and the shared
counter `corrupted`: the new variables and the new counter, or none when
`new Buffer(body)` throws because `body` is undefined.  The content of
`new Buffer(size)` is left open by the platform; it is zero here. -/
def deYenc (yenc : Bool) (dec : Decoder) (segment : Segment) (f : FetchStage)
    (corrupted : Nat) : Option (SegmentVars × Nat) :=
  if yenc then
    if f.err then
      let yfile : YencFile :=
        { segment := segment, articlesize := dec.articlesize segment, intact := false,
          buffer := List.replicate (dec.articlesize segment) 0 }
      some ({ yfile := some yfile, fbuffer := yfile.buffer, cachehit := f.cachehit },
        corrupted + 1)
    else
      let d := dec.decodePiece segment f.body
      let yfile : YencFile :=
        { segment := segment, articlesize := dec.articlesize segment, intact := d.2,
          buffer := d.1 }
      some ({ yfile := some yfile, fbuffer := yfile.buffer, cachehit := f.cachehit },
        if !yfile.intact then corrupted + 1 else corrupted)
  else
    match f.body with
    | some body =>
      some ({ yfile := none, fbuffer := utf8Encode body, cachehit := f.cachehit }, corrupted)
    | none => none

/-- The three steps of one segment task up to the call of `deYenc`. -/
def fetchStage (p : Segment × Outcome) : FetchStage :=
  getSegment (getCache p.1 p.2) p.2

/-! ## Streaming: the ordered reassembler -/

/-- What the PassThrough stream receives: the two events emitted on it, the
buffers written to it, an error event, and `stream.end()`. -/
inductive StreamItem where
  | corruptedPiece (yfile : Option YencFile)
  | corrupted
  | write (buffer : Buffer)
  | error
  | finish
deriving DecidableEq, Repr

/-- The arguments of one `progress` event. -/
structure ProgressEvent where
  percent : Nat
  segmentId : String
  cachehit : Bool
deriving DecidableEq, Repr

/-- The file entry a stream is made for, with the decoder and, for every
segment, what the collaborators answer. -/
structure Assembly where
  yenc : Bool
  dec : Decoder
  pieces : List (Segment × Outcome)

/-- The state shared by the callbacks of one `stream()` call.  The list `done`
holds, for every index whose `deYenc` has run, the variables of that
activation; these are the indexes whose `ready-` event the informer has seen.
The index `pushing` is the order task `Fn.series` has reached. -/
structure StreamState where
  finishedSegments : Nat
  corrupted : Nat
  done : List (Nat × SegmentVars)
  pushing : Nat
  ended : Bool
  output : List StreamItem
  progressEvents : List ProgressEvent
  getBodyCalls : Nat
  jobsPushed : Nat
deriving DecidableEq, Repr

/-- The state when `stream()` returns. -/
def StreamState.start : StreamState :=
  { finishedSegments := 0, corrupted := 0, done := [], pushing := 0, ended := false,
    output := [], progressEvents := [], getBodyCalls := 0, jobsPushed := 0 }

/-- The variables of the activation with the given index, once its `ready-`
event has been emitted. -/
def StreamState.ready (s : StreamState) (index : Nat) : Option SegmentVars :=
  (s.done.find? (fun e => e.1 == index)).map (fun e => e.2)

/-- The callbacks the event loop can run.  `complete index`: the task of that
segment reaches `deYenc` (its two earlier steps touch only its own variables,
the job list and the cache file, and are folded into this step).  `push`: the
listener `segmentIsReady` of the order task at `pushing`.  `written`: the
final callback of the series of order tasks. -/
inductive Action where
  | complete (index : Nat)
  | push
  | written
deriving DecidableEq, Repr

/-- The callback `deYenc` of the task with the given index, run on the shared
state.  It runs once per task, and not at all when `new Buffer(body)`
throws. -/
def stepComplete (a : Assembly) (s : StreamState) (index : Nat) : Option StreamState :=
  match a.pieces[index]? with
  | none => none
  | some p =>
    if (s.ready index).isSome then none
    else
      let f := fetchStage p
      match deYenc a.yenc a.dec p.1 f s.corrupted with
      | none => none
      | some r =>
        let finished := s.finishedSegments + 1
        some { s with
          finishedSegments := finished
          corrupted := r.2
          done := s.done ++ [(index, r.1)]
          progressEvents := s.progressEvents ++
            [{ percent := progress finished a.pieces.length, segmentId := p.1.id,
               cachehit := r.1.cachehit }]
          getBodyCalls := s.getBodyCalls + f.getBodyCalls
          jobsPushed := s.jobsPushed + f.jobsPushed }

/-- The events `segmentIsReady` emits before it writes the buffer: the test
`if (corrupted)` and, inside it, `if (corrupted == 1)`, both on the shared
counter. -/
def pushEvents (corrupted : Nat) (vars : SegmentVars) : List StreamItem :=
  if corrupted ≠ 0 then
    StreamItem.corruptedPiece vars.yfile ::
      (if corrupted = 1 then [StreamItem.corrupted] else [])
  else []

/-- The listener `segmentIsReady` of the order task at `pushing`.  It is
registered with `informer.after`, so it runs once the `ready-` event of its
index has been emitted, before or after the registration. -/
def stepPush (a : Assembly) (s : StreamState) : Option StreamState :=
  if s.pushing < a.pieces.length then
    match s.ready s.pushing with
    | none => none
    | some vars =>
      some { s with
        output := s.output ++ pushEvents s.corrupted vars ++ [StreamItem.write vars.fbuffer]
        pushing := s.pushing + 1 }
  else none

/-- The callback `written` of the series: it runs once, after the last order
task has called `nextPush`.  No task passes an error, so it only ends the
stream. -/
def stepWritten (a : Assembly) (s : StreamState) : Option StreamState :=
  if s.pushing = a.pieces.length ∧ s.ended = false then
    some { s with output := s.output ++ [StreamItem.finish], ended := true }
  else none

/-- One callback run by the event loop, or none when it cannot run in this
state. -/
def step (a : Assembly) (s : StreamState) : Action → Option StreamState
  | Action.complete index => stepComplete a s index
  | Action.push => stepPush a s
  | Action.written => stepWritten a s

/-- A run of the event loop: the callbacks in the order they run. -/
def exec (a : Assembly) : StreamState → List Action → Option StreamState
  | s, [] => some s
  | s, act :: rest =>
    match step a s act with
    | none => none
    | some t => exec a t rest

/-- The buffers written to the stream, in the order written. -/
def writes : List StreamItem → List Buffer
  | [] => []
  | StreamItem.write buffer :: rest => buffer :: writes rest
  | _ :: rest => writes rest

/-- The indexes of the segment tasks in the order they complete. -/
def completions : List Action → List Nat
  | [] => []
  | Action.complete index :: rest => index :: completions rest
  | _ :: rest => completions rest

/-- The variables the task of one segment assigns, or none when it throws.
They do not depend on the shared counter. -/
def segmentVars (a : Assembly) (p : Segment × Outcome) : Option SegmentVars :=
  (deYenc a.yenc a.dec p.1 (fetchStage p) 0).map (fun r => r.1)

/-- The buffer the task of one segment produces (empty when it throws). -/
def segmentBuffer (a : Assembly) (p : Segment × Outcome) : Buffer :=
  match segmentVars a p with
  | some vars => vars.fbuffer
  | none => []

/-- Whether the task of one segment counts it as corrupted: decoding is on,
and the fetch failed or the decoder reported the piece as not intact. -/
def segmentCorrupted (a : Assembly) (p : Segment × Outcome) : Bool :=
  a.yenc && ((fetchStage p).err || !(a.dec.decodePiece p.1 (fetchStage p).body).2)

/-- A decoder for examples: the article size is the `bytes` attribute, and
every body decodes to its low bytes and is intact. -/
def sampleDecoder : Decoder :=
  { articlesize := fun segment => segment.bytes
    decodePiece := fun _ body => (binaryBytes (body.getD []), true) }

/-! ## Sample assemblies -/

/-- Two segments with decoding on: the fetch of the first fails, the second is
fetched and decodes intact. -/
def firstFetchFails : Assembly :=
  { yenc := true
    dec := sampleDecoder
    pieces :=
      [({ id := "part1@example", bytes := 3, number := 1 },
        { temp := none, file := none, fetch := FetchResult.error none }),
       ({ id := "part2@example", bytes := 2, number := 2 },
        { temp := none, file := none, fetch := FetchResult.ok [1, 2] })] }

/-- Two segments with decoding on: both fetches fail. -/
def bothFetchesFail : Assembly :=
  { yenc := true
    dec := sampleDecoder
    pieces :=
      [({ id := "part1@example", bytes := 3, number := 1 },
        { temp := none, file := none, fetch := FetchResult.error none }),
       ({ id := "part2@example", bytes := 2, number := 2 },
        { temp := none, file := none, fetch := FetchResult.error none })] }

/-- One segment with decoding off whose cache file holds the single byte
0xFF. -/
def cachedHighByte : Assembly :=
  { yenc := false
    dec := sampleDecoder
    pieces :=
      [({ id := "part1@example", bytes := 1, number := 1 },
        { temp := some "/tmp/nzb", file := some [0xFF], fetch := FetchResult.ok [0xFF] })] }

/-- A segment whose cache file is read without error and is empty. -/
def emptyCacheFile : Segment × Outcome :=
  ({ id := "part1@example", bytes := 1, number := 1 },
   { temp := some "/tmp/nzb", file := some [], fetch := FetchResult.ok [0x41] })

/-- Two segments with decoding off, both with a non-empty cache file. -/
def bothCached : Assembly :=
  { yenc := false
    dec := sampleDecoder
    pieces :=
      [({ id := "part1@example", bytes := 1, number := 1 },
        { temp := some "/tmp/nzb", file := some [0x41], fetch := FetchResult.ok [0x41] }),
       ({ id := "part2@example", bytes := 2, number := 2 },
        { temp := some "/tmp/nzb", file := some [0x42, 0x43],
          fetch := FetchResult.error none })] }

/-- The output of a run, when every callback in it could run. -/
def outputOf (a : Assembly) (acts : List Action) : Option (List StreamItem) :=
  (exec a StreamState.start acts).map (fun s => s.output)

/-! ## The invariant of a run -/

/-- What holds in every state of a run: the buffers written so far are those
of the segments before `pushing`, in order; each of those segments has
completed; every recorded completion holds what its task assigns; the stream
has ended only when all buffers are written, and then `finish` is the last
item; no error event has been emitted. -/
structure Invariant (a : Assembly) (s : StreamState) : Prop where
  pushing_le : s.pushing ≤ a.pieces.length
  written : writes s.output = (a.pieces.take s.pushing).map (segmentBuffer a)
  ready_before : ∀ i, i < s.pushing → (s.ready i).isSome = true
  done_vars : ∀ e ∈ s.done, ∃ p, a.pieces[e.1]? = some p ∧ segmentVars a p = some e.2
  ended_all : s.ended = true → s.pushing = a.pieces.length
  ended_last : s.ended = true → s.output.getLast? = some StreamItem.finish
  no_error : StreamItem.error ∉ s.output

/-! ## Job registry: proofs -/

theorem forEachJob_abort_count (count : Nat) (jobs : List Job) :
    (forEachJob abortEachJob count jobs).1 = count := by
  induction jobs generalizing count with
  | nil => rfl
  | cons job rest ih =>
    simp only [forEachJob]
    rw [ih]
    unfold abortEachJob
    split <;> rfl

/-- Whatever the jobs are, `abort()` emits no event. -/
theorem abort_never_emits (jobs : List Job) : (abort jobs).2 = [] := by
  simp [abort, forEachJob_abort_count]

/-- C4: on a registry holding one queued job, `abort()` cancels that job, so
the number of jobs it cancels is 1, and it emits no `aborted` event. -/
theorem abort_one_queued_job_emits_nothing :
    abort [{ executed := false, cancelled := false, paused := false }]
        = ([{ executed := false, cancelled := true, paused := false }], [])
      ∧ cancellable [{ executed := false, cancelled := false, paused := false }] = 1 := by
  decide

theorem forEachJob_pause_jobs (count : Nat) (jobs : List Job) :
    (forEachJob pauseEachJob count jobs).2
      = jobs.map (fun job =>
          if !job.executed && !job.cancelled && !job.paused then job.pause else job) := by
  induction jobs generalizing count with
  | nil => rfl
  | cons job rest ih =>
    simp only [forEachJob, List.map_cons]
    rw [ih]
    congr 1
    unfold pauseEachJob
    split <;> rfl

theorem forEachJob_resume_jobs (count : Nat) (jobs : List Job) :
    (forEachJob resumeEachJob count jobs).2
      = jobs.map (fun job =>
          if !job.executed && !job.cancelled && job.paused then job.resume else job) := by
  induction jobs generalizing count with
  | nil => rfl
  | cons job rest ih =>
    simp only [forEachJob, List.map_cons]
    rw [ih]
    congr 1
    unfold resumeEachJob
    split <;> rfl

/-- C5, as stated, fails: a queued job that was already paused before
`pause()` is left alone by `pause()` and then resumed by `resume()`, so its
paused flag differs from what it was. -/
theorem pause_resume_unpauses_paused_job :
    (resume (pause [{ executed := false, cancelled := false, paused := true }]).1).1
        = [{ executed := false, cancelled := false, paused := false }]
      ∧ (resume (pause [{ executed := false, cancelled := false, paused := true }]).1).1
        ≠ [{ executed := false, cancelled := false, paused := true }] := by
  decide

/-- C5, amended: when no job that is neither executed nor cancelled is already
paused, `pause()` followed by `resume()` leaves the flags of every job as they
were. -/
theorem pause_resume_identity (jobs : List Job)
    (h : ∀ job ∈ jobs, job.executed = false → job.cancelled = false → job.paused = false) :
    (resume (pause jobs).1).1 = jobs := by
  simp only [resume, pause, forEachJob_pause_jobs, forEachJob_resume_jobs, List.map_map]
  conv_rhs => rw [← List.map_id jobs]
  apply List.map_congr_left
  intro job hjob
  have hj := h job hjob
  rcases job with ⟨e, c, p⟩
  cases e <;> cases c <;> cases p <;> simp_all [Job.pause, Job.resume]

/-- The amended C5 at a registry with one queued job, one executed job and one
cancelled job. -/
theorem pause_resume_identity_witness :
    (resume (pause [{ executed := false, cancelled := false, paused := false },
        { executed := true, cancelled := false, paused := true },
        { executed := false, cancelled := true, paused := true }]).1).1
      = [{ executed := false, cancelled := false, paused := false },
        { executed := true, cancelled := false, paused := true },
        { executed := false, cancelled := true, paused := true }] :=
  pause_resume_identity _ (by decide)

/-! ## Progress: proofs -/

/-- C6: with 29 of 50 segments finished the getter returns 57, while
`floor(29 / 50 × 100)` is 58: the quotient 29 / 50 rounds to a binary64 value
whose product with 100 rounds to a value just below 58.  Likewise 29 of 100
gives 28, not 29. -/
theorem progress_29_of_50 :
    progress 29 50 = 57 ∧ exactPercent 29 50 = 58
      ∧ progress 29 100 = 28 ∧ exactPercent 29 100 = 29 := by
  decide

/-! ## Triage: proofs -/

theorem dropLiteral_eq_some (lit s r : List Char) :
    dropLiteral lit s = some r ↔ s = lit ++ r := by
  induction lit generalizing s with
  | nil => simp [dropLiteral, eq_comm]
  | cons l lit ih =>
    cases s with
    | nil => simp [dropLiteral]
    | cons c s =>
      simp only [dropLiteral, List.cons_append, List.cons.injEq]
      by_cases hlc : l = c
      · simp [hlc, ih]
      · simp [hlc, eq_comm]

theorem isDigit_dot : Char.isDigit '.' = false := by decide

theorem matchPartRarHere_of_occurrence (s digits : List Char) (h : PartRarAt s [] digits) :
    matchPartRarHere s = some digits := by
  obtain ⟨c, post, hs, hc, hne, hd⟩ := h
  subst hs
  have h1 : dropLiteral ['p', 'a', 'r', 't']
      ('p' :: 'a' :: 'r' :: 't' :: (digits ++ '.' :: 'r' :: 'a' :: 'r' :: post))
      = some (digits ++ '.' :: 'r' :: 'a' :: 'r' :: post) := by
    rw [dropLiteral_eq_some]; rfl
  have h2 : (digits ++ '.' :: 'r' :: 'a' :: 'r' :: post).takeWhile Char.isDigit = digits := by
    rw [List.takeWhile_append_of_pos hd]
    simp [List.takeWhile, isDigit_dot]
  have h3 : (digits ++ '.' :: 'r' :: 'a' :: 'r' :: post).dropWhile Char.isDigit
      = '.' :: 'r' :: 'a' :: 'r' :: post := by
    rw [List.dropWhile_append_of_pos hd]
    simp [List.dropWhile, isDigit_dot]
  have h4 : dropLiteral ['.', 'r', 'a', 'r'] ('.' :: 'r' :: 'a' :: 'r' :: post) = some post := by
    rw [dropLiteral_eq_some]; rfl
  have h5 : digits.isEmpty = false := by
    cases digits with
    | nil => exact absurd rfl hne
    | cons _ _ => rfl
  simp only [List.nil_append, matchPartRarHere, hc, h1, h2, h3, h4, h5]
  simp

theorem occurrence_of_matchPartRarHere (s digits : List Char)
    (h : matchPartRarHere s = some digits) : PartRarAt s [] digits := by
  cases s with
  | nil => simp [matchPartRarHere] at h
  | cons c rest =>
    simp only [matchPartRarHere] at h
    split at h
    · exact absurd h (by simp)
    · rename_i hc
      split at h
      · exact absurd h (by simp)
      · rename_i afterPart h1
        split at h
        · exact absurd h (by simp)
        · rename_i hne
          split at h
          · exact absurd h (by simp)
          · rename_i post h4
            rw [dropLiteral_eq_some] at h1 h4
            have hd : digits = afterPart.takeWhile Char.isDigit := by
              simpa [eq_comm] using h
            refine ⟨c, post, ?_, by simpa using hc, ?_, ?_⟩
            · have hsplit := List.takeWhile_append_dropWhile Char.isDigit afterPart
              rw [h4, ← hd] at hsplit
              rw [h1, ← hsplit]
              simp
            · intro hnil
              apply hne
              rw [← hd, hnil]
              rfl
            · intro d hmem
              rw [hd] at hmem
              exact List.mem_takeWhile_imp hmem

theorem partRarAt_cons (c : Char) (rest pre digits : List Char) :
    PartRarAt (c :: rest) (c :: pre) digits ↔ PartRarAt rest pre digits := by
  unfold PartRarAt
  constructor
  · rintro ⟨x, post, hs, hx, hne, hd⟩
    exact ⟨x, post, by simpa using hs, hx, hne, hd⟩
  · rintro ⟨x, post, hs, hx, hne, hd⟩
    exact ⟨x, post, by simp [hs], hx, hne, hd⟩

theorem partRarAt_head (c d : Char) (rest pre digits : List Char)
    (h : PartRarAt (c :: rest) (d :: pre) digits) : d = c := by
  obtain ⟨x, post, hs, _⟩ := h
  simp only [List.cons_append, List.cons.injEq] at hs
  exact hs.1.symm

/-- The search returns group 1 of the leftmost occurrence. -/
theorem execPartRar_leftmost (s pre digits : List Char) (h : PartRarAt s pre digits)
    (hleft : ∀ pre2 digits2, PartRarAt s pre2 digits2 → pre.length ≤ pre2.length) :
    execPartRar s = some digits := by
  induction s generalizing pre with
  | nil =>
    obtain ⟨c, post, hs, _⟩ := h
    simp at hs
  | cons c rest ih =>
    simp only [execPartRar]
    cases hm : matchPartRarHere (c :: rest) with
    | some found =>
      have hocc := occurrence_of_matchPartRarHere _ _ hm
      have hlen := hleft [] found hocc
      have hpre : pre = [] := by simpa using hlen
      subst hpre
      have := matchPartRarHere_of_occurrence _ _ h
      rw [hm] at this
      simpa using this
    | none =>
      cases pre with
      | nil =>
        have := matchPartRarHere_of_occurrence _ _ h
        rw [hm] at this
        exact absurd this (by simp)
      | cons d pre1 =>
        have hdc := partRarAt_head _ _ _ _ _ h
        subst hdc
        simp only
        apply ih pre1 ((partRarAt_cons _ _ _ _).1 h)
        intro pre2 digits2 h2
        have := hleft (d :: pre2) digits2 ((partRarAt_cons _ _ _ _).2 h2)
        simpa using this

/-- The search fails when the pattern occurs nowhere. -/
theorem execPartRar_none (s : List Char) (h : ∀ pre digits, ¬ PartRarAt s pre digits) :
    execPartRar s = none := by
  induction s with
  | nil => rfl
  | cons c rest ih =>
    simp only [execPartRar]
    cases hm : matchPartRarHere (c :: rest) with
    | some found => exact absurd (occurrence_of_matchPartRarHere _ _ hm) (h [] found)
    | none =>
      simp only
      apply ih
      intro pre digits hocc
      exact h (c :: pre) digits ((partRarAt_cons _ _ _ _).2 hocc)

theorem endsWith_iff (s suffix : List Char) :
    endsWith s suffix = true ↔ ∃ stem, s = stem ++ suffix := by
  unfold endsWith
  rw [List.isSuffixOf_iff_suffix]
  constructor
  · rintro ⟨t, ht⟩
    exact ⟨t, ht.symm⟩
  · rintro ⟨t, ht⟩
    exact ⟨t, ht.symm⟩

theorem endsWith_par2_of_rar (stem : List Char) :
    endsWith (stem ++ ['.', 'r', 'a', 'r']) ['.', 'p', 'a', 'r', '2'] = false := by
  cases h : endsWith (stem ++ ['.', 'r', 'a', 'r']) ['.', 'p', 'a', 'r', '2'] with
  | false => rfl
  | true =>
    obtain ⟨t, ht⟩ := (endsWith_iff _ _).1 h
    have := congrArg List.reverse ht
    simp at this

theorem minusOne_toNumber (digits : List Char) (h : decimalValue digits < 2 ^ 53) :
    minusOne (toNumber digits) = JsNumber.finite ((decimalValue digits : Int) - 1) := by
  unfold toNumber f64OfNat
  rw [if_pos h]
  unfold minusOne
  by_cases h0 : decimalValue digits = 0
  · simp [h0]
  · have hpos : ¬ ((decimalValue digits : Int) ≤ 0) := by omega
    simp only [hpos, if_false, Int.toNat_ofNat]
    unfold f64OfNat
    have hlt : decimalValue digits - 1 < 2 ^ 53 := by omega
    rw [if_pos hlt]
    congr 1
    omega

theorem isDigit_value_le (d : Char) (h : d.isDigit = true) : d.toNat - 48 ≤ 9 := by
  simp only [Char.isDigit, Bool.and_eq_true, decide_eq_true_eq] at h
  have h2 := h.2
  have : d.val.toNat ≤ 57 := by
    have := UInt32.le_def.1 h2
    simpa using this
  unfold Char.toNat
  omega

theorem plusOne_toNumber_two (d1 d2 : Char) (h1 : d1.isDigit = true) (h2 : d2.isDigit = true) :
    plusOne (toNumber [d1, d2]) = JsNumber.finite ((decimalValue [d1, d2] : Int) + 1) := by
  have hv : decimalValue [d1, d2] = 10 * (d1.toNat - 48) + (d2.toNat - 48) := by
    simp [decimalValue]
  have b1 := isDigit_value_le d1 h1
  have b2 := isDigit_value_le d2 h2
  have hlt : decimalValue [d1, d2] < 2 ^ 53 := by
    rw [hv]
    calc 10 * (d1.toNat - 48) + (d2.toNat - 48) ≤ 99 := by omega
      _ < 2 ^ 53 := by norm_num
  have hlt2 : decimalValue [d1, d2] + 1 < 2 ^ 53 := by
    rw [hv]
    calc 10 * (d1.toNat - 48) + (d2.toNat - 48) + 1 ≤ 100 := by omega
      _ < 2 ^ 53 := by norm_num
  unfold toNumber f64OfNat
  rw [if_pos hlt]
  unfold plusOne f64OfNat
  simp only [Int.toNat_ofNat]
  rw [if_pos hlt2]
  rfl

theorem matchRnnHere_long (a b c d e : Char) (rest : List Char) :
    matchRnnHere (a :: b :: c :: d :: e :: rest) = none := by
  unfold matchRnnHere
  split
  · rename_i heq
    simp at heq
  · rfl

theorem execRnn_suffix (stem : List Char) (d1 d2 : Char) (h1 : d1.isDigit = true)
    (h2 : d2.isDigit = true) : execRnn (stem ++ ['.', 'r', d1, d2]) = some [d1, d2] := by
  induction stem with
  | nil => simp [execRnn, matchRnnHere, h1, h2]
  | cons c stem ih =>
    have hm : matchRnnHere (c :: (stem ++ ['.', 'r', d1, d2])) = none := by
      cases stem with
      | nil => exact matchRnnHere_long _ _ _ _ _ _
      | cons x stem =>
        cases stem with
        | nil => exact matchRnnHere_long _ _ _ _ _ _
        | cons y stem =>
          cases stem with
          | nil => exact matchRnnHere_long _ _ _ _ _ _
          | cons z stem =>
            cases stem with
            | nil => exact matchRnnHere_long _ _ _ _ _ _
            | cons w stem => exact matchRnnHere_long _ _ _ _ _ _
    show (match matchRnnHere (c :: (stem ++ ['.', 'r', d1, d2])) with
      | some digits => some digits
      | none => execRnn (stem ++ ['.', 'r', d1, d2])) = some [d1, d2]
    rw [hm]
    exact ih

theorem endsWith_of_rnn (stem : List Char) (d1 d2 : Char) (h1 : d1.isDigit = true) :
    endsWith (stem ++ ['.', 'r', d1, d2]) ['.', 'p', 'a', 'r', '2'] = false
      ∧ endsWith (stem ++ ['.', 'r', d1, d2]) ['.', 'r', 'a', 'r'] = false := by
  have ha : d1 ≠ 'a' := by
    intro h
    rw [h] at h1
    exact absurd h1 (by decide)
  constructor
  · cases h : endsWith (stem ++ ['.', 'r', d1, d2]) ['.', 'p', 'a', 'r', '2'] with
    | false => rfl
    | true =>
      obtain ⟨t, ht⟩ := (endsWith_iff _ _).1 h
      have := congrArg List.reverse ht
      simp at this
  · cases h : endsWith (stem ++ ['.', 'r', d1, d2]) ['.', 'r', 'a', 'r'] with
    | false => rfl
    | true =>
      obtain ⟨t, ht⟩ := (endsWith_iff _ _).1 h
      have := congrArg List.reverse ht
      simp at this
      exact absurd this.2.1 ha

/-- C10, as stated, fails on two counts.  The search for `part<K>.rar` is not
anchored at the end: `a.part2.rar.part5.rar` ends in `.part5.rar` and gets
suborder 1, not 4, and `a.part2.rar.x.rar` does not end in `part<K>.rar` and
gets suborder 1, not 0.  And `Number` rounds a K of 2 ^ 53 + 1 to 2 ^ 53. -/
theorem triage_part_search_not_anchored :
    "a.part2.rar.part5.rar".toList = "a.part2.rar".toList ++ '.' :: "part5.rar".toList
      ∧ (triage "a.part2.rar.part5.rar".toList emptyLists).1.suborder = JsNumber.finite 1
      ∧ (triage "a.part2.rar.x.rar".toList emptyLists).1.suborder = JsNumber.finite 1
      ∧ (triage "x.part9007199254740993.rar".toList emptyLists).1.suborder
          = JsNumber.finite 9007199254740991 := by
  decide

/-- C10, amended: for a filename ending in `.rar`, the suborder is K - 1 for
the K (below 2 ^ 53) of the leftmost occurrence of
`<non-word character>part<K>.rar` anywhere in the name, and 0 when the name
has no such occurrence; a filename ending in `.r<NN>` gets NN + 1; in each of
these cases the file is appended to `rars.others` once; a filename ending in
`.par2` keeps the suborder of the constructor and is not added to
`rars.others`. -/
theorem triage_rar_suborder (filename : List Char) (nzb : NzbLists) :
    (∀ pre digits, (∃ stem, filename = stem ++ ['.', 'r', 'a', 'r']) →
        PartRarAt filename pre digits →
        (∀ pre2 digits2, PartRarAt filename pre2 digits2 → pre.length ≤ pre2.length) →
        decimalValue digits < 2 ^ 53 →
        (triage filename nzb).1.suborder = JsNumber.finite ((decimalValue digits : Int) - 1)
          ∧ (triage filename nzb).2.rarsOthers = nzb.rarsOthers ++ [(triage filename nzb).1])
    ∧ ((∃ stem, filename = stem ++ ['.', 'r', 'a', 'r']) →
        (∀ pre digits, ¬ PartRarAt filename pre digits) →
        (triage filename nzb).1.suborder = JsNumber.finite 0
          ∧ (triage filename nzb).2.rarsOthers = nzb.rarsOthers ++ [(triage filename nzb).1])
    ∧ (∀ stem d1 d2, filename = stem ++ ['.', 'r', d1, d2] → d1.isDigit = true →
        d2.isDigit = true →
        (triage filename nzb).1.suborder = JsNumber.finite ((decimalValue [d1, d2] : Int) + 1)
          ∧ (triage filename nzb).2.rarsOthers = nzb.rarsOthers ++ [(triage filename nzb).1])
    ∧ ((∃ stem, filename = stem ++ ['.', 'p', 'a', 'r', '2']) →
        (triage filename nzb).1.suborder = (newFile filename).suborder
          ∧ (triage filename nzb).2.rarsOthers = nzb.rarsOthers) := by
  refine ⟨?_, ?_, ?_, ?_⟩
  · rintro pre digits ⟨stem, hstem⟩ hocc hleft hlt
    have hpar : endsWith filename ['.', 'p', 'a', 'r', '2'] = false := by
      rw [hstem]; exact endsWith_par2_of_rar stem
    have hrar : endsWith filename ['.', 'r', 'a', 'r'] = true :=
      (endsWith_iff _ _).2 ⟨stem, hstem⟩
    have hexec := execPartRar_leftmost filename pre digits hocc hleft
    simp [triage, hpar, hrar, hexec, minusOne_toNumber digits hlt]
  · rintro ⟨stem, hstem⟩ hnone
    have hpar : endsWith filename ['.', 'p', 'a', 'r', '2'] = false := by
      rw [hstem]; exact endsWith_par2_of_rar stem
    have hrar : endsWith filename ['.', 'r', 'a', 'r'] = true :=
      (endsWith_iff _ _).2 ⟨stem, hstem⟩
    have hexec := execPartRar_none filename hnone
    simp [triage, hpar, hrar, hexec]
  · rintro stem d1 d2 hstem h1 h2
    have hends := endsWith_of_rnn stem d1 d2 h1
    rw [← hstem] at hends
    have hexec := execRnn_suffix stem d1 d2 h1 h2
    rw [← hstem] at hexec
    simp [triage, hends.1, hends.2, hexec, plusOne_toNumber_two d1 d2 h1 h2]
  · rintro ⟨stem, hstem⟩
    have hpar : endsWith filename ['.', 'p', 'a', 'r', '2'] = true :=
      (endsWith_iff _ _).2 ⟨stem, hstem⟩
    simp only [triage, hpar, if_true]
    split <;> simp [newFile]

/-! ## Streaming: proofs -/

theorem writes_append (xs ys : List StreamItem) : writes (xs ++ ys) = writes xs ++ writes ys := by
  induction xs with
  | nil => rfl
  | cons x xs ih => cases x <;> simp [writes, ih]

theorem completions_append (xs ys : List Action) :
    completions (xs ++ ys) = completions xs ++ completions ys := by
  induction xs with
  | nil => rfl
  | cons x xs ih => cases x <;> simp [completions, ih]

theorem exec_append (a : Assembly) (s : StreamState) (xs ys : List Action) :
    exec a s (xs ++ ys) = (exec a s xs).bind (fun t => exec a t ys) := by
  induction xs generalizing s with
  | nil => rfl
  | cons x xs ih =>
    simp only [List.cons_append, exec]
    cases step a s x with
    | none => rfl
    | some t => exact ih t

/-- The variables a task assigns do not depend on the shared counter. -/
theorem deYenc_vars (yenc : Bool) (dec : Decoder) (segment : Segment) (f : FetchStage)
    (c : Nat) (r : SegmentVars × Nat) (h : deYenc yenc dec segment f c = some r) :
    (deYenc yenc dec segment f 0).map (fun t => t.1) = some r.1 := by
  cases yenc <;> cases herr : f.err <;> cases hb : f.body <;>
    simp [deYenc, herr, hb] at h ⊢ <;> rw [← h]

/-- Whether a task throws does not depend on the shared counter. -/
theorem deYenc_isSome (yenc : Bool) (dec : Decoder) (segment : Segment) (f : FetchStage)
    (c : Nat) (h : (deYenc yenc dec segment f 0).isSome = true) :
    (deYenc yenc dec segment f c).isSome = true := by
  unfold deYenc at h ⊢
  cases yenc with
  | true =>
    by_cases herr : f.err = true
    · simp [herr]
    · simp [herr]
  | false =>
    cases hb : f.body with
    | none => simp [hb] at h
    | some body => simp

theorem ready_isSome_iff (s : StreamState) (i : Nat) :
    (s.ready i).isSome = true ↔ i ∈ s.done.map Prod.fst := by
  simp [StreamState.ready]

theorem ready_mem (s : StreamState) (i : Nat) (vars : SegmentVars)
    (h : s.ready i = some vars) : (i, vars) ∈ s.done := by
  unfold StreamState.ready at h
  rw [Option.map_eq_some'] at h
  obtain ⟨e, he, hv⟩ := h
  have hp := List.find?_some he
  have hm := List.mem_of_find?_eq_some he
  have h1 : e.1 = i := by simpa using hp
  have : e = (i, vars) := by
    rcases e with ⟨x, y⟩
    simp only at h1 hv
    rw [h1, hv]
  rw [← this]
  exact hm

theorem invariant_start (a : Assembly) : Invariant a StreamState.start where
  pushing_le := Nat.zero_le _
  written := by simp [StreamState.start, writes]
  ready_before := by intro i hi; simp [StreamState.start] at hi
  done_vars := by intro e he; simp [StreamState.start] at he
  ended_all := by intro h; simp [StreamState.start] at h
  ended_last := by intro h; simp [StreamState.start] at h
  no_error := by simp [StreamState.start]

theorem writes_pushEvents (corrupted : Nat) (vars : SegmentVars) :
    writes (pushEvents corrupted vars) = [] := by
  unfold pushEvents
  split
  · split <;> simp [writes]
  · rfl

theorem error_not_mem_pushEvents (corrupted : Nat) (vars : SegmentVars) :
    StreamItem.error ∉ pushEvents corrupted vars := by
  unfold pushEvents
  split
  · split <;> simp
  · simp

theorem stepComplete_spec (a : Assembly) (s t : StreamState) (index : Nat)
    (h : stepComplete a s index = some t) :
    ∃ p r, a.pieces[index]? = some p ∧ (s.ready index).isSome = false
      ∧ deYenc a.yenc a.dec p.1 (fetchStage p) s.corrupted = some r
      ∧ t = { s with
          finishedSegments := s.finishedSegments + 1
          corrupted := r.2
          done := s.done ++ [(index, r.1)]
          progressEvents := s.progressEvents ++
            [{ percent := progress (s.finishedSegments + 1) a.pieces.length,
               segmentId := p.1.id, cachehit := r.1.cachehit }]
          getBodyCalls := s.getBodyCalls + (fetchStage p).getBodyCalls
          jobsPushed := s.jobsPushed + (fetchStage p).jobsPushed } := by
  unfold stepComplete at h
  cases hp : a.pieces[index]? with
  | none => simp [hp] at h
  | some p =>
    simp only [hp] at h
    cases hr : (s.ready index).isSome with
    | true => simp [hr] at h
    | false =>
      simp only [hr, Bool.false_eq_true, if_false] at h
      cases hd : deYenc a.yenc a.dec p.1 (fetchStage p) s.corrupted with
      | none => simp [hd] at h
      | some r =>
        simp only [hd, Option.some.injEq] at h
        exact ⟨p, r, rfl, rfl, hd, h.symm⟩

theorem stepPush_spec (a : Assembly) (s t : StreamState) (h : stepPush a s = some t) :
    s.pushing < a.pieces.length ∧ ∃ vars, s.ready s.pushing = some vars
      ∧ t = { s with
          output := s.output ++ pushEvents s.corrupted vars ++ [StreamItem.write vars.fbuffer]
          pushing := s.pushing + 1 } := by
  unfold stepPush at h
  by_cases hlt : s.pushing < a.pieces.length
  · simp only [hlt, if_true] at h
    cases hr : s.ready s.pushing with
    | none => simp [hr] at h
    | some vars =>
      simp only [hr, Option.some.injEq] at h
      exact ⟨hlt, vars, rfl, h.symm⟩
  · simp [hlt] at h

theorem stepWritten_spec (a : Assembly) (s t : StreamState) (h : stepWritten a s = some t) :
    s.pushing = a.pieces.length ∧ s.ended = false
      ∧ t = { s with output := s.output ++ [StreamItem.finish], ended := true } := by
  unfold stepWritten at h
  by_cases hc : s.pushing = a.pieces.length ∧ s.ended = false
  · rw [if_pos hc] at h
    exact ⟨hc.1, hc.2, (Option.some.inj h).symm⟩
  · simp [hc] at h

theorem ready_append_isSome (s : StreamState) (i : Nat) (extra : List (Nat × SegmentVars))
    (h : (s.ready i).isSome = true) :
    (StreamState.ready { s with done := s.done ++ extra } i).isSome = true := by
  rw [ready_isSome_iff] at h ⊢
  simp only [List.map_append, List.mem_append]
  exact Or.inl h

theorem invariant_step (a : Assembly) (s t : StreamState) (act : Action)
    (hinv : Invariant a s) (h : step a s act = some t) : Invariant a t := by
  cases act with
  | complete index =>
    obtain ⟨p, r, hp, _, hd, ht⟩ := stepComplete_spec a s t index h
    subst ht
    refine ⟨hinv.pushing_le, hinv.written, ?_, ?_, hinv.ended_all, hinv.ended_last,
      hinv.no_error⟩
    · intro i hi
      exact ready_append_isSome s i _ (hinv.ready_before i hi)
    · intro e he
      simp only [List.mem_append, List.mem_singleton] at he
      rcases he with he | he
      · exact hinv.done_vars e he
      · subst he
        exact ⟨p, hp, deYenc_vars _ _ _ _ _ _ hd⟩
  | push =>
    obtain ⟨hlt, vars, hr, ht⟩ := stepPush_spec a s t h
    subst ht
    obtain ⟨p, hp, hv⟩ := hinv.done_vars _ (ready_mem s _ _ hr)
    have hbuf : segmentBuffer a p = vars.fbuffer := by
      simp [segmentBuffer, hv]
    refine ⟨hlt, ?_, ?_, hinv.done_vars, ?_, ?_, ?_⟩
    · simp only [writes_append, writes_pushEvents, List.append_nil, hinv.written,
        List.take_succ, List.map_append]
      simp only at hp
      simp [hp, writes, hbuf]
    · intro i hi
      simp only at hi
      rcases Nat.lt_succ_iff_lt_or_eq.1 hi with hlt2 | heq
      · exact hinv.ready_before i hlt2
      · rw [heq]
        show (s.ready s.pushing).isSome = true
        rw [hr]
        rfl
    · intro he
      have := hinv.ended_all he
      omega
    · intro he
      have := hinv.ended_all he
      omega
    · simp only [List.mem_append, List.mem_singleton, not_or]
      exact ⟨⟨hinv.no_error, error_not_mem_pushEvents _ _⟩, by simp⟩
  | written =>
    obtain ⟨hp, _, ht⟩ := stepWritten_spec a s t h
    subst ht
    refine ⟨hinv.pushing_le, ?_, hinv.ready_before, hinv.done_vars, fun _ => hp, ?_, ?_⟩
    · simp [writes_append, writes, hinv.written]
    · intro _
      simp
    · simp only [List.mem_append, List.mem_singleton, not_or]
      exact ⟨hinv.no_error, by simp⟩

theorem invariant_exec (a : Assembly) (s t : StreamState) (acts : List Action)
    (hinv : Invariant a s) (h : exec a s acts = some t) : Invariant a t := by
  induction acts generalizing s with
  | nil =>
    simp only [exec, Option.some.injEq] at h
    rw [← h]
    exact hinv
  | cons act rest ih =>
    simp only [exec] at h
    cases hs : step a s act with
    | none => simp [hs] at h
    | some u =>
      simp only [hs] at h
      exact ih u (invariant_step a s u act hinv hs) h

/-- The indexes recorded as completed are those of the `complete` callbacks
run, in order. -/
theorem done_exec (a : Assembly) (s t : StreamState) (acts : List Action)
    (h : exec a s acts = some t) :
    t.done.map Prod.fst = s.done.map Prod.fst ++ completions acts := by
  induction acts generalizing s with
  | nil =>
    simp only [exec, Option.some.injEq] at h
    rw [← h]
    simp [completions]
  | cons act rest ih =>
    simp only [exec] at h
    cases hs : step a s act with
    | none => simp [hs] at h
    | some u =>
      simp only [hs] at h
      rw [ih u h]
      cases act with
      | complete index =>
        obtain ⟨p, r, _, _, _, hu⟩ := stepComplete_spec a s u index hs
        subst hu
        simp [completions]
      | push =>
        obtain ⟨_, vars, _, hu⟩ := stepPush_spec a s u hs
        subst hu
        simp [completions]
      | written =>
        obtain ⟨_, _, hu⟩ := stepWritten_spec a s u hs
        subst hu
        simp [completions]

theorem completions_map_complete (order : List Nat) :
    completions (order.map Action.complete) = order := by
  induction order with
  | nil => rfl
  | cons i rest ih => simp [completions, ih]

theorem completions_replicate_push (n : Nat) :
    completions (List.replicate n Action.push) = [] := by
  induction n with
  | zero => rfl
  | succ n ih => simp [List.replicate_succ, completions, ih]

/-- Tasks that do not throw can complete in any order without repetition. -/
theorem exec_completions (a : Assembly) (order : List Nat) (s : StreamState)
    (hok : ∀ i ∈ order, ∃ p, a.pieces[i]? = some p ∧ (segmentVars a p).isSome = true)
    (hnodup : (s.done.map Prod.fst ++ order).Nodup) :
    ∃ t, exec a s (order.map Action.complete) = some t
      ∧ t.done.map Prod.fst = s.done.map Prod.fst ++ order
      ∧ t.pushing = s.pushing ∧ t.ended = s.ended ∧ t.output = s.output := by
  induction order generalizing s with
  | nil => exact ⟨s, rfl, by simp, rfl, rfl, rfl⟩
  | cons i rest ih =>
    obtain ⟨p, hp, hsome⟩ := hok i (List.mem_cons_self _ _)
    have hnot : (s.ready i).isSome = false := by
      cases hr : (s.ready i).isSome with
      | false => rfl
      | true =>
        rw [ready_isSome_iff] at hr
        rw [List.nodup_append] at hnodup
        exact absurd (List.mem_cons_self i rest) (fun hmem => hnodup.2.2 hr hmem)
    have hsome2 : (deYenc a.yenc a.dec p.1 (fetchStage p) s.corrupted).isSome = true := by
      apply deYenc_isSome
      simpa [segmentVars] using hsome
    obtain ⟨r, hr⟩ := Option.isSome_iff_exists.1 hsome2
    have hstep : ∃ u, step a s (Action.complete i) = some u
        ∧ u.done.map Prod.fst = s.done.map Prod.fst ++ [i] ∧ u.pushing = s.pushing
        ∧ u.ended = s.ended ∧ u.output = s.output := by
      have hsome3 : (step a s (Action.complete i)).isSome = true := by
        simp [step, stepComplete, hp, hnot, hr]
      obtain ⟨u, hu⟩ := Option.isSome_iff_exists.1 hsome3
      obtain ⟨_, _, _, _, _, hueq⟩ := stepComplete_spec a s u i hu
      refine ⟨u, hu, ?_, ?_, ?_, ?_⟩ <;> rw [hueq]
      simp
    obtain ⟨u, hu, hud, hup, hue, huo⟩ := hstep
    obtain ⟨t, ht, hdone, hpush, hend, hout⟩ := ih u
      (fun j hj => hok j (List.mem_cons_of_mem _ hj))
      (by rw [hud]; simpa [List.append_assoc] using hnodup)
    refine ⟨t, ?_, ?_, hpush.trans hup, hend.trans hue, hout.trans huo⟩
    · simp only [List.map_cons, exec, hu]
      exact ht
    · rw [hdone, hud]
      simp

/-- Once every task has completed, the order tasks run to the end of the
list and the stream is ended. -/
theorem exec_pushes (a : Assembly) (n : Nat) (s : StreamState)
    (hn : s.pushing + n = a.pieces.length)
    (hall : ∀ i, i < a.pieces.length → (s.ready i).isSome = true)
    (hended : s.ended = false) :
    ∃ t, exec a s (List.replicate n Action.push ++ [Action.written]) = some t
      ∧ t.ended = true := by
  induction n generalizing s with
  | zero =>
    have hp : s.pushing = a.pieces.length := by omega
    refine ⟨{ s with output := s.output ++ [StreamItem.finish], ended := true }, ?_, rfl⟩
    simp [exec, step, stepWritten, hp, hended]
  | succ n ih =>
    have hlt : s.pushing < a.pieces.length := by omega
    obtain ⟨vars, hv⟩ := Option.isSome_iff_exists.1 (hall s.pushing hlt)
    have hstep : ∃ u, step a s Action.push = some u ∧ u.done = s.done
        ∧ u.pushing = s.pushing + 1 ∧ u.ended = s.ended := by
      have hsome : (step a s Action.push).isSome = true := by
        simp [step, stepPush, hlt, hv]
      obtain ⟨u, hu⟩ := Option.isSome_iff_exists.1 hsome
      obtain ⟨_, _, _, hueq⟩ := stepPush_spec a s u hu
      refine ⟨u, hu, ?_, ?_, ?_⟩ <;> rw [hueq]
    obtain ⟨u, hu, hud, hup, hue⟩ := hstep
    obtain ⟨t, ht, hte⟩ := ih u (by rw [hup]; omega)
      (fun i hi => by
        have := hall i hi
        rw [ready_isSome_iff] at this ⊢
        rw [hud]
        exact this)
      (by rw [hue]; exact hended)
    refine ⟨t, ?_, hte⟩
    simp only [List.replicate_succ, List.cons_append, exec, hu]
    exact ht

/-- C1: in every run of the callbacks of `stream()`, whatever the order in
which the segment tasks complete and however the order tasks interleave with
them, the buffers written so far are those of segments 0, 1, ... up to the
order task reached, each once and in index order; each was written after its
own task completed; and the stream is ended only when the buffers of all
segments are written, `end` coming last.  Once all tasks have completed, the
remaining order tasks can run and the stream is ended.  For every permutation
of the segment indexes there is a run in which the tasks complete in that
order, and it ends the stream with the buffers of all segments written in
index order. -/
theorem stream_writes_segments_in_order (a : Assembly) :
    (∀ acts s, exec a StreamState.start acts = some s →
        writes s.output = (a.pieces.take s.pushing).map (segmentBuffer a)
        ∧ (∀ i, i < s.pushing → i ∈ completions acts)
        ∧ (s.ended = true →
            writes s.output = a.pieces.map (segmentBuffer a)
            ∧ s.output.getLast? = some StreamItem.finish))
    ∧ (∀ acts s, exec a StreamState.start acts = some s →
        (∀ i, i < a.pieces.length → i ∈ completions acts) → s.ended = false →
        ∃ t, exec a s (List.replicate (a.pieces.length - s.pushing) Action.push
            ++ [Action.written]) = some t ∧ t.ended = true)
    ∧ ((∀ p ∈ a.pieces, (segmentVars a p).isSome = true) →
        ∀ order : List Nat, order.Perm (List.range a.pieces.length) →
          ∃ acts s, completions acts = order ∧ exec a StreamState.start acts = some s
            ∧ s.ended = true ∧ writes s.output = a.pieces.map (segmentBuffer a)) := by
  have safety : ∀ acts s, exec a StreamState.start acts = some s →
      writes s.output = (a.pieces.take s.pushing).map (segmentBuffer a)
      ∧ (∀ i, i < s.pushing → i ∈ completions acts)
      ∧ (s.ended = true →
          writes s.output = a.pieces.map (segmentBuffer a)
          ∧ s.output.getLast? = some StreamItem.finish) := by
    intro acts s h
    have hinv := invariant_exec a _ s acts (invariant_start a) h
    have hdone := done_exec a _ s acts h
    refine ⟨hinv.written, ?_, ?_⟩
    · intro i hi
      have := (ready_isSome_iff s i).1 (hinv.ready_before i hi)
      rw [hdone] at this
      simpa [StreamState.start] using this
    · intro he
      refine ⟨?_, hinv.ended_last he⟩
      rw [hinv.written, hinv.ended_all he, List.take_length]
  refine ⟨safety, ?_, ?_⟩
  · intro acts s h hall hended
    have hinv := invariant_exec a _ s acts (invariant_start a) h
    have hdone := done_exec a _ s acts h
    apply exec_pushes a _ s (by have := hinv.pushing_le; omega) ?_ hended
    intro i hi
    rw [ready_isSome_iff, hdone]
    simpa [StreamState.start] using hall i hi
  intro hok order hperm
  have hmem : ∀ i, i ∈ order ↔ i < a.pieces.length := by
    intro i
    rw [hperm.mem_iff, List.mem_range]
  obtain ⟨t, ht, hdone, hpush, hend, _⟩ := exec_completions a order StreamState.start
    (by
      intro i hi
      have hlt := (hmem i).1 hi
      refine ⟨a.pieces[i], by simp [hlt], hok _ (List.getElem_mem _)⟩)
    (by
      simp only [StreamState.start, List.map_nil, List.nil_append]
      exact hperm.nodup_iff.2 (List.nodup_range _))
  obtain ⟨u, hu, hue⟩ := exec_pushes a a.pieces.length t
    (by rw [hpush]; simp [StreamState.start])
    (by
      intro i hi
      rw [ready_isSome_iff, hdone]
      simpa [StreamState.start] using (hmem i).2 hi)
    (by rw [hend]; rfl)
  refine ⟨order.map Action.complete ++
    (List.replicate a.pieces.length Action.push ++ [Action.written]), u, ?_, ?_, hue, ?_⟩
  · simp [completions_append, completions_map_complete, completions_replicate_push,
      completions]
  · rw [exec_append, ht]
    exact hu
  · have hrun : exec a StreamState.start (order.map Action.complete ++
        (List.replicate a.pieces.length Action.push ++ [Action.written])) = some u := by
      rw [exec_append, ht]
      exact hu
    exact ((safety _ u hrun).2.2 hue).1

/-- C1 at a run of two segments that complete in the order 1, 0: the buffers
are written in the order 0, 1. -/
theorem stream_writes_segments_in_order_witness :
    ∃ s, exec firstFetchFails StreamState.start
        [Action.complete 1, Action.complete 0, Action.push, Action.push, Action.written] = some s
      ∧ writes s.output = [[0, 0, 0], [1, 2]] := by
  have hsome : (exec firstFetchFails StreamState.start
      [Action.complete 1, Action.complete 0, Action.push, Action.push, Action.written]).isSome
      = true := by decide
  obtain ⟨s, hs⟩ := Option.isSome_iff_exists.1 hsome
  have hended : s.ended = true := by
    have : (exec firstFetchFails StreamState.start
      [Action.complete 1, Action.complete 0, Action.push, Action.push, Action.written]).map
        (fun s => s.ended) = some true := by decide
    rw [hs] at this
    simpa using this
  refine ⟨s, hs, ?_⟩
  rw [(((stream_writes_segments_in_order firstFetchFails).1 _ s hs).2.2 hended).1]
  decide

/-- C2: the `corrupted` event is not emitted once per assembly.  With the
fetch of segment 0 failed and segment 1 intact, completing in index order,
both writes find the counter at 1 and `corrupted` is emitted twice.  With both
fetches failed and the task of segment 1 completing before that of segment 0,
both writes find the counter at 2 and `corrupted` is not emitted at all. -/
theorem corrupted_event_not_once :
    (outputOf firstFetchFails
        [Action.complete 0, Action.push, Action.complete 1, Action.push, Action.written]).map
        (fun out => out.count StreamItem.corrupted) = some 2
      ∧ (outputOf bothFetchesFail
        [Action.complete 1, Action.complete 0, Action.push, Action.push, Action.written]).map
        (fun out => out.count StreamItem.corrupted) = some 0 := by
  decide

/-- C3: with the fetch of segment 0 failed and segment 1 fetched and intact,
completing in index order, the write of segment 1 is preceded by a
`corrupted-piece` event carrying the intact decoded segment 1. -/
theorem corrupted_piece_for_intact_segment :
    segmentCorrupted firstFetchFails
        ({ id := "part2@example", bytes := 2, number := 2 },
         { temp := none, file := none, fetch := FetchResult.ok [1, 2] }) = false
      ∧ outputOf firstFetchFails
        [Action.complete 0, Action.push, Action.complete 1, Action.push, Action.written]
      = some
        [StreamItem.corruptedPiece (some
            { segment := { id := "part1@example", bytes := 3, number := 1 }, articlesize := 3,
              intact := false, buffer := [0, 0, 0] }),
          StreamItem.corrupted,
          StreamItem.write [0, 0, 0],
          StreamItem.corruptedPiece (some
            { segment := { id := "part2@example", bytes := 2, number := 2 }, articlesize := 2,
              intact := true, buffer := [1, 2] }),
          StreamItem.corrupted,
          StreamItem.write [1, 2],
          StreamItem.finish] := by
  decide

/-- C7: with decoding off and the raw body 0xFF read from the cache, the
buffer written is the two bytes 0xC3 0xBF, the UTF-8 encoding of the
character U+00FF, not the raw byte. -/
theorem raw_body_reencoded :
    outputOf cachedHighByte [Action.complete 0, Action.push, Action.written]
      = some [StreamItem.write [0xC3, 0xBF], StreamItem.finish] := by
  decide

theorem deYenc_counter (a : Assembly) (p : Segment × Outcome) (c : Nat)
    (r : SegmentVars × Nat) (h : deYenc a.yenc a.dec p.1 (fetchStage p) c = some r) :
    r.2 = if segmentCorrupted a p then c + 1 else c := by
  unfold segmentCorrupted
  cases hy : a.yenc <;> cases herr : (fetchStage p).err <;> cases hb : (fetchStage p).body <;>
    simp [deYenc, hy, herr, hb] at h ⊢ <;> rw [← h]

/-- When no segment is corrupted the shared counter stays at 0 and neither
`corrupted-piece` nor `corrupted` is emitted in any run. -/
theorem no_corruption_no_events (a : Assembly)
    (hnone : ∀ p ∈ a.pieces, segmentCorrupted a p = false)
    (acts : List Action) (s : StreamState) (h : exec a StreamState.start acts = some s) :
    s.corrupted = 0 ∧ StreamItem.corrupted ∉ s.output
      ∧ ∀ yfile, StreamItem.corruptedPiece yfile ∉ s.output := by
  have key : ∀ acts s t, exec a s acts = some t →
      (s.corrupted = 0 ∧ StreamItem.corrupted ∉ s.output
        ∧ ∀ yfile, StreamItem.corruptedPiece yfile ∉ s.output) →
      (t.corrupted = 0 ∧ StreamItem.corrupted ∉ t.output
        ∧ ∀ yfile, StreamItem.corruptedPiece yfile ∉ t.output) := by
    intro acts
    induction acts with
    | nil =>
      intro s t h hs
      simp only [exec, Option.some.injEq] at h
      rw [← h]
      exact hs
    | cons act rest ih =>
      intro s t h hs
      simp only [exec] at h
      cases hstep : step a s act with
      | none => simp [hstep] at h
      | some u =>
        simp only [hstep] at h
        apply ih u t h
        cases act with
        | complete index =>
          obtain ⟨p, r, hp, _, hd, hueq⟩ := stepComplete_spec a s u index hstep
          have hc := deYenc_counter a p _ r hd
          rw [hnone p (List.getElem?_mem hp)] at hc
          rw [hueq]
          exact ⟨by simp [hc, hs.1], hs.2⟩
        | push =>
          obtain ⟨_, vars, _, hueq⟩ := stepPush_spec a s u hstep
          rw [hueq]
          refine ⟨hs.1, ?_, ?_⟩
          · simp [pushEvents, hs.1, hs.2.1]
          · intro yfile
            simp [pushEvents, hs.1, hs.2.2 yfile]
        | written =>
          obtain ⟨_, _, hueq⟩ := stepWritten_spec a s u hstep
          rw [hueq]
          refine ⟨hs.1, ?_, ?_⟩
          · simp [hs.2.1]
          · intro yfile
            simp [hs.2.2 yfile]
  exact key acts _ s h (by simp [StreamState.start])

theorem fetchStage_failed (segment : Segment) (w : Outcome) (response : Option JsString)
    (hmiss : truthy (getCache segment w).body = false)
    (hfetch : w.fetch = FetchResult.error response) :
    (fetchStage (segment, w)).err = true
      ∧ (fetchStage (segment, w)).cachehit = (getCache segment w).cachehit := by
  simp [fetchStage, getSegment, hmiss, hfetch]

theorem ready_append_new (s : StreamState) (k : Nat) (vars : SegmentVars)
    (h : (s.ready k).isSome = false) (t : StreamState) (ht : t.done = s.done ++ [(k, vars)]) :
    t.ready k = some vars := by
  unfold StreamState.ready at h ⊢
  rw [ht, List.find?_append]
  cases hf : List.find? (fun e => e.1 == k) s.done with
  | some e => simp [hf] at h
  | none => simp

/-- C8: with decoding on, when the fetch of segment k fails its task still
completes: it emits nothing on the stream, raises the corrupted counter by one
and `finishedSegments` by one, and leaves a decoded segment marked not intact
whose buffer has the article size of the segment.  In every run no error event
is emitted on the stream, and the buffer written at position k has that
length. -/
theorem failed_fetch_yields_placeholder (a : Assembly) (k : Nat) (segment : Segment)
    (w : Outcome) (response : Option JsString)
    (hyenc : a.yenc = true) (hk : a.pieces[k]? = some (segment, w))
    (hmiss : truthy (getCache segment w).body = false)
    (hfetch : w.fetch = FetchResult.error response) :
    (∀ s, (s.ready k).isSome = false →
        ∃ t yfile, step a s (Action.complete k) = some t
          ∧ t.corrupted = s.corrupted + 1
          ∧ t.finishedSegments = s.finishedSegments + 1
          ∧ t.output = s.output
          ∧ t.ready k = some { yfile := some yfile, fbuffer := yfile.buffer,
                               cachehit := (getCache segment w).cachehit }
          ∧ yfile.intact = false
          ∧ yfile.buffer.length = a.dec.articlesize segment)
    ∧ (∀ acts s, exec a StreamState.start acts = some s →
        StreamItem.error ∉ s.output
        ∧ (k < s.pushing → ∃ buffer, (writes s.output)[k]? = some buffer
            ∧ buffer.length = a.dec.articlesize segment)) := by
  obtain ⟨herr, hhit⟩ := fetchStage_failed segment w response hmiss hfetch
  have hde : ∀ c, deYenc a.yenc a.dec segment (fetchStage (segment, w)) c = some
      ({ yfile := some { segment := segment, articlesize := a.dec.articlesize segment,
                         intact := false,
                         buffer := List.replicate (a.dec.articlesize segment) 0 },
         fbuffer := List.replicate (a.dec.articlesize segment) 0,
         cachehit := (getCache segment w).cachehit }, c + 1) := by
    intro c
    simp [deYenc, hyenc, herr, hhit]
  constructor
  · intro s hs
    have hsome : (step a s (Action.complete k)).isSome = true := by
      simp [step, stepComplete, hk, hs, hde]
    obtain ⟨t, ht⟩ := Option.isSome_iff_exists.1 hsome
    obtain ⟨p, r, hp, _, hd, hteq⟩ := stepComplete_spec a s t k ht
    rw [hk] at hp
    have hpe : p = (segment, w) := (Option.some.inj hp).symm
    subst hpe
    rw [hde] at hd
    have hre := (Option.some.inj hd).symm
    subst hre
    refine ⟨t, { segment := segment, articlesize := a.dec.articlesize segment,
                 intact := false,
                 buffer := List.replicate (a.dec.articlesize segment) 0 },
      ht, ?_, ?_, ?_, ?_, rfl, ?_⟩
    · rw [hteq]
    · rw [hteq]
    · rw [hteq]
    · exact ready_append_new s k _ hs t (by rw [hteq])
    · simp
  · intro acts s h
    have hinv := invariant_exec a _ s acts (invariant_start a) h
    refine ⟨hinv.no_error, ?_⟩
    intro hlt
    refine ⟨List.replicate (a.dec.articlesize segment) 0, ?_, by simp⟩
    rw [hinv.written, List.getElem?_map, List.getElem?_take_of_lt hlt, hk]
    simp [segmentBuffer, segmentVars, hde]

/-- C8 at a run of two segments where the fetch of segment 0 fails: the buffer
written at position 0 has the article size 3. -/
theorem failed_fetch_yields_placeholder_witness :
    ∃ buffer, ((exec firstFetchFails StreamState.start
        [Action.complete 0, Action.push]).map (fun s => (writes s.output)[0]?))
        = some (some buffer) ∧ buffer.length = 3 := by
  have hsome : (exec firstFetchFails StreamState.start
      [Action.complete 0, Action.push]).isSome = true := by decide
  obtain ⟨s, hs⟩ := Option.isSome_iff_exists.1 hsome
  have hpush : s.pushing = 1 := by
    have : (exec firstFetchFails StreamState.start
      [Action.complete 0, Action.push]).map (fun s => s.pushing) = some 1 := by decide
    rw [hs] at this
    simpa using this
  obtain ⟨buffer, hb, hlen⟩ := ((failed_fetch_yields_placeholder firstFetchFails 0
    { id := "part1@example", bytes := 3, number := 1 }
    { temp := none, file := none, fetch := FetchResult.error none } none rfl rfl rfl rfl).2
      _ s hs).2 (by rw [hpush]; decide)
  exact ⟨buffer, by rw [hs]; simp [hb], hlen⟩

/-- C9, as stated, fails: a cache file that is read without error but is empty
leaves `body` falsy, so the fetch client is called and a job is registered,
while `cachehit` is already true. -/
theorem empty_cache_file_still_fetches :
    (getCache emptyCacheFile.1 emptyCacheFile.2).cachehit = true
      ∧ (fetchStage emptyCacheFile).getBodyCalls = 1
      ∧ (fetchStage emptyCacheFile).jobsPushed = 1 := by
  decide

theorem fetchStage_hit (segment : Segment) (w : Outcome) (dir : String) (buffer : Buffer)
    (htemp : w.temp = some dir) (hfile : w.file = some buffer) (hne : buffer ≠ []) :
    (fetchStage (segment, w)).getBodyCalls = 0
      ∧ (fetchStage (segment, w)).jobsPushed = 0
      ∧ (fetchStage (segment, w)).cachehit = true := by
  cases buffer with
  | nil => exact absurd rfl hne
  | cons b rest =>
    simp [fetchStage, getSegment, getCache, htemp, hfile, toBinaryString, truthy]

theorem deYenc_cachehit (yenc : Bool) (dec : Decoder) (segment : Segment) (f : FetchStage)
    (c : Nat) (r : SegmentVars × Nat) (h : deYenc yenc dec segment f c = some r) :
    r.1.cachehit = f.cachehit := by
  cases yenc <;> cases herr : f.err <;> cases hb : f.body <;>
    simp [deYenc, herr, hb] at h <;> rw [← h]

/-- C9, amended: when the cache file of a segment is read without error and is
not empty, the task makes no call to the fetch client and registers no job,
and the progress event of the segment carries `cachehit` true.  In a stream
where this holds for every segment, no run calls the fetch client or registers
a job, and every progress event carries `cachehit` true. -/
theorem cache_hit_skips_fetch (a : Assembly) :
    (∀ k segment w dir buffer, a.pieces[k]? = some (segment, w) → w.temp = some dir →
        w.file = some buffer → buffer ≠ [] →
        (fetchStage (segment, w)).getBodyCalls = 0
        ∧ (fetchStage (segment, w)).jobsPushed = 0
        ∧ ∀ s t, step a s (Action.complete k) = some t →
            t.getBodyCalls = s.getBodyCalls ∧ t.jobsPushed = s.jobsPushed
            ∧ ∃ percent, t.progressEvents = s.progressEvents ++
                [{ percent := percent, segmentId := segment.id, cachehit := true }])
    ∧ ((∀ p ∈ a.pieces, ∃ dir buffer, p.2.temp = some dir ∧ p.2.file = some buffer
          ∧ buffer ≠ []) →
        ∀ acts s, exec a StreamState.start acts = some s →
          s.getBodyCalls = 0 ∧ s.jobsPushed = 0
          ∧ ∀ e ∈ s.progressEvents, e.cachehit = true) := by
  constructor
  · intro k segment w dir buffer hk htemp hfile hne
    obtain ⟨h1, h2, h3⟩ := fetchStage_hit segment w dir buffer htemp hfile hne
    refine ⟨h1, h2, ?_⟩
    intro s t ht
    obtain ⟨p, r, hp, _, hd, hteq⟩ := stepComplete_spec a s t k ht
    rw [hk] at hp
    have hpe : p = (segment, w) := (Option.some.inj hp).symm
    subst hpe
    have hc := deYenc_cachehit _ _ _ _ _ _ hd
    rw [h3] at hc
    refine ⟨by rw [hteq]; simp [h1], by rw [hteq]; simp [h2], ?_⟩
    exact ⟨_, by rw [hteq, hc]⟩
  · intro hall
    have key : ∀ acts s t, exec a s acts = some t →
        (s.getBodyCalls = 0 ∧ s.jobsPushed = 0 ∧ ∀ e ∈ s.progressEvents, e.cachehit = true) →
        (t.getBodyCalls = 0 ∧ t.jobsPushed = 0
          ∧ ∀ e ∈ t.progressEvents, e.cachehit = true) := by
      intro acts
      induction acts with
      | nil =>
        intro s t h hs
        simp only [exec, Option.some.injEq] at h
        rw [← h]
        exact hs
      | cons act rest ih =>
        intro s t h hs
        simp only [exec] at h
        cases hstep : step a s act with
        | none => simp [hstep] at h
        | some u =>
          simp only [hstep] at h
          apply ih u t h
          cases act with
          | complete index =>
            obtain ⟨p, r, hp, _, hd, hueq⟩ := stepComplete_spec a s u index hstep
            obtain ⟨dir, buffer, htemp, hfile, hne⟩ := hall p (List.getElem?_mem hp)
            obtain ⟨h1, h2, h3⟩ := fetchStage_hit p.1 p.2 dir buffer htemp hfile hne
            have hc := deYenc_cachehit _ _ _ _ _ _ hd
            rw [h3] at hc
            rw [hueq]
            refine ⟨by simp [hs.1, h1], by simp [hs.2.1, h2], ?_⟩
            intro e he
            simp only [List.mem_append, List.mem_singleton] at he
            rcases he with he | he
            · exact hs.2.2 e he
            · rw [he]
              exact hc
          | push =>
            obtain ⟨_, vars, _, hueq⟩ := stepPush_spec a s u hstep
            rw [hueq]
            exact hs
          | written =>
            obtain ⟨_, _, hueq⟩ := stepWritten_spec a s u hstep
            rw [hueq]
            exact hs
    intro acts s h
    exact key acts _ s h (by simp [StreamState.start])

/-- The amended C9 at a run of two cached segments: the fetch client is never
called. -/
theorem cache_hit_skips_fetch_witness :
    (exec bothCached StreamState.start
        [Action.complete 1, Action.complete 0, Action.push, Action.push, Action.written]).map
      (fun s => s.getBodyCalls) = some 0 := by
  have hsome : (exec bothCached StreamState.start
      [Action.complete 1, Action.complete 0, Action.push, Action.push, Action.written]).isSome
      = true := by decide
  obtain ⟨s, hs⟩ := Option.isSome_iff_exists.1 hsome
  have hall : ∀ p ∈ bothCached.pieces, ∃ dir buffer, p.2.temp = some dir
      ∧ p.2.file = some buffer ∧ buffer ≠ [] := by
    intro p hp
    simp only [bothCached, List.mem_cons, List.mem_singleton, List.not_mem_nil, or_false] at hp
    rcases hp with hp | hp <;> rw [hp] <;> exact ⟨_, _, rfl, rfl, by decide⟩
  have := ((cache_hit_skips_fetch bothCached).2 hall _ s hs).1
  rw [hs]
  simp [this]

/-- The amended C10 at `a.part2.rar.part5.rar`, whose leftmost occurrence has
K = 2, and at `x.r07`. -/
theorem triage_rar_suborder_witness :
    (triage "a.part2.rar.part5.rar".toList emptyLists).1.suborder = JsNumber.finite 1
      ∧ (triage "x.r07".toList emptyLists).1.suborder = JsNumber.finite 8 := by
  have hocc : PartRarAt "a.part2.rar.part5.rar".toList ['a'] ['2'] :=
    ⟨'.', ".part5.rar".toList, by decide, by decide, by decide, by decide⟩
  have hleft : ∀ pre2 digits2, PartRarAt "a.part2.rar.part5.rar".toList pre2 digits2 →
      ['a'].length ≤ pre2.length := by
    intro pre2 digits2 h
    cases pre2 with
    | nil =>
      obtain ⟨c, post, hs, _⟩ := h
      have h2 := congrArg (fun l => l.get? 1) hs
      simp at h2
    | cons x rest => simp
  have h1 := ((triage_rar_suborder "a.part2.rar.part5.rar".toList emptyLists).1 ['a'] ['2']
    ⟨"a.part2.rar.part5".toList, by decide⟩ hocc hleft (by decide)).1
  have h2 := ((triage_rar_suborder "x.r07".toList emptyLists).2.2.1 ['x'] '0' '7'
    (by decide) (by decide) (by decide)).1
  exact ⟨by rw [h1]; decide, by rw [h2]; decide⟩

end NzbFile
